import Mathlib

/-!
Verification of the Signal Timeline Engine of `my_rust_egui_app`
(`src/main.rs`).  The engine's times are `f64` values obtained from
millisecond-precision timestamps; all arithmetic the engine performs on
them (comparisons, `max`, adding the fixed pulse/arrow widths `0.001`
and `0.2`) is exact on such values, so times are embedded as rationals
(`ℚ`).  Each definition below mirrors one function of `src/main.rs`,
with `Interval.stop` standing for the Rust field `end` (a Lean keyword).
-/

namespace LogAnalyzer

/-- Rust `struct Interval { start: f64, end: f64 }` (main.rs:76-79);
`stop` embeds the field `end`. -/
structure Interval where
  start : ℚ
  stop : ℚ
deriving DecidableEq, Repr

/-- The comparison passed to `sort_by` in `merge_on_intervals`
(main.rs:919-920): order by `start`. -/
def ivLe (a b : Interval) : Bool := a.start ≤ b.start

/-- The sweep loop of `merge_on_intervals` (main.rs:922-940), with the
current merged tail `cur` as explicit state: if the next interval starts
at or before `cur.stop` it is fused into `cur` (extending `stop` only
when strictly larger, as in `if iv.end > last_iv.end`); otherwise `cur`
is closed and the next interval opens a new tail. -/
def mergeLoop (cur : Interval) : List Interval → List Interval
  | [] => [cur]
  | iv :: rest =>
      if iv.start ≤ cur.stop then
        mergeLoop ⟨cur.start, if cur.stop < iv.stop then iv.stop else cur.stop⟩ rest
      else
        cur :: mergeLoop iv rest

/-- The sweep of `merge_on_intervals` over the sorted list: the first
interval is pushed as the initial merged tail (the `merged.last_mut()`
`None` arm, main.rs:934-939). -/
def mergeAll : List Interval → List Interval
  | [] => []
  | iv :: rest => mergeLoop iv rest

/-- Rust `merge_on_intervals` (main.rs:918-942): stable-sort the raw
interval list by `start` (Rust `sort_by` is a stable merge sort, embedded
as `List.mergeSort`), then sweep fusing overlapping-or-touching
intervals. -/
def merge_on_intervals (l : List Interval) : List Interval :=
  mergeAll (l.mergeSort ivLe)

/-- The point `t` lies in the closed span of `iv`. -/
def covers (iv : Interval) (t : ℚ) : Prop := iv.start ≤ t ∧ t ≤ iv.stop

/-- The point `t` lies in the closed span of some interval of `l`. -/
def coveredBy (l : List Interval) (t : ℚ) : Prop := ∃ iv ∈ l, covers iv t

instance (iv : Interval) (t : ℚ) : Decidable (covers iv t) := by
  unfold covers; infer_instance

instance (l : List Interval) (t : ℚ) : Decidable (coveredBy l t) := by
  unfold coveredBy; infer_instance

/-- Ordering of intervals by `start`, as a proposition. -/
def leStart (a b : Interval) : Prop := a.start ≤ b.start

/-- Strict separation: `a` closes strictly before `b` opens
(`merged[i].end < merged[i+1].start`). -/
def sep (a b : Interval) : Prop := a.stop < b.start

/-- The data-model invariant on an interval: `start <= end`. -/
def wfIv (iv : Interval) : Prop := iv.start ≤ iv.stop

instance (a b : Interval) : Decidable (leStart a b) := by unfold leStart; infer_instance
instance (a b : Interval) : Decidable (sep a b) := by unfold sep; infer_instance
instance (iv : Interval) : Decidable (wfIv iv) := by unfold wfIv; infer_instance

/-- The `value` field of a log entry (`serde_json::Value`), restricted to the
shapes the engine inspects through `as_str` and `as_f64`
(main.rs:874, 889). -/
inductive JsonValue where
  | str : String → JsonValue
  | num : ℚ → JsonValue
  | other : JsonValue
deriving DecidableEq, Repr

/-- Rust `LogEntry` (main.rs:46-58), restricted to the fields the engine
reads; `timestamp_num` is the numeric time obtained from the timestamp
normalizer, and the display-only `comment` and raw `timestamp` string are
omitted. -/
structure LogEntry where
  kind : String
  name : String
  group : Option String
  value : JsonValue
  timestamp_num : ℚ
deriving DecidableEq, Repr

/-- Rust `SignalData` (main.rs:82-89); the rendering-only `color` field is
omitted.  `is_on` records the pending ON start time for ONOFF signals. -/
structure SignalData where
  name : String
  y_offset : ℚ
  on_intervals : List Interval
  is_on : Option ℚ
  visible : Bool
deriving DecidableEq, Repr

/-- Rust `signals.get_mut(name)` followed by a mutation `f`: the Rust
`HashMap<String, SignalData>` is embedded as an association list; updating a
missing key is a no-op, exactly as `if let Some(sig) = signals.get_mut(..)`
(main.rs:876, 880, 890, 899, 907). -/
def updateSig (signals : List (String × SignalData)) (n : String)
    (f : SignalData → SignalData) : List (String × SignalData) :=
  signals.map (fun p => if p.1 = n then (p.1, f p.2) else p)

/-- Rust `signals.get(name)` on the association-list embedding of the map. -/
def lookupSig : List (String × SignalData) → String → Option SignalData
  | [], _ => none
  | p :: rest, n => if p.1 = n then some p.2 else lookupSig rest n

/-- Rust `update_signal_data` (main.rs:869-915): dispatch on the event kind
and mutate only the signal named by the event.  The fixed pulse width
`0.001` (main.rs:893) and the arrow/fallback width `0.2` (main.rs:902, 910)
are exact rationals. -/
def update_signal_data (signals : List (String × SignalData)) (log : LogEntry) :
    List (String × SignalData) :=
  if log.kind = "ONOFF" then
    match log.value with
    | JsonValue.str v =>
        if v = "ON" then
          updateSig signals log.name (fun s => { s with is_on := some log.timestamp_num })
        else if v = "OFF" then
          updateSig signals log.name (fun s =>
            match s.is_on with
            | some st =>
                { s with on_intervals := s.on_intervals ++ [⟨st, log.timestamp_num⟩],
                         is_on := none }
            | none => s)
        else signals
    | _ => signals
  else if log.kind = "PULSE" then
    match log.value with
    | JsonValue.num _ =>
        updateSig signals log.name (fun s =>
          { s with on_intervals :=
              s.on_intervals ++ [⟨log.timestamp_num, log.timestamp_num + 1/1000⟩] })
    | _ => signals
  else if log.kind = "ARROW" then
    updateSig signals log.name (fun s =>
      { s with on_intervals :=
          s.on_intervals ++ [⟨log.timestamp_num, log.timestamp_num + 1/5⟩] })
  else
    updateSig signals log.name (fun s =>
      { s with on_intervals :=
          s.on_intervals ++ [⟨log.timestamp_num, log.timestamp_num + 1/5⟩] })

/-- The sorted, deduplicated signal-name list `recalc` collects through a
`BTreeSet` (main.rs:198-202): a `BTreeSet` iterates its elements in sorted
order without duplicates, embedded as stable sort followed by `dedup`. -/
def unique_names (logs : List LogEntry) : List String :=
  ((logs.map (fun l => l.name)).mergeSort (fun a b => a ≤ b)).dedup

/-- The fresh `SignalData` that `recalc` inserts per name (main.rs:204-216). -/
def initSignal (n : String) : SignalData :=
  ⟨n, 0, [], none, false⟩

/-- The freshly cleared and repopulated signal map of `recalc`
(main.rs:203-216). -/
def initSignals (logs : List LogEntry) : List (String × SignalData) :=
  (unique_names logs).map (fun n => (n, initSignal n))

/-- The interval-construction pass of `recalc` (main.rs:256-258): fold the
entire log list through `update_signal_data` starting from the fresh map. -/
def buildSignals (logs : List LogEntry) : List (String × SignalData) :=
  logs.foldl update_signal_data (initSignals logs)

/-- The merged interval list a full rebuild leaves for signal `n`
(main.rs:256-261: interval construction followed by `merge_on_intervals`
per signal). -/
def recalcMergedIntervals (logs : List LogEntry) (n : String) :
    Option (List Interval) :=
  (lookupSig (buildSignals logs) n).map (fun s => merge_on_intervals s.on_intervals)

/-- Rust `MyApp::build_digital_wave` (main.rs:169-191), the points of the
returned `Line` as `(x, y)` pairs: the state of the loop is the point list
built so far together with `current_x`. -/
def build_digital_wave (on_intervals : List Interval) (min_t max_t offset : ℚ) :
    List (ℚ × ℚ) :=
  let r := on_intervals.foldl
    (fun (acc : List (ℚ × ℚ) × ℚ) iv =>
      ((if acc.2 < iv.start then acc.1 ++ [(iv.start, offset)] else acc.1) ++
        [(iv.start, offset + 1), (iv.stop, offset + 1), (iv.stop, offset)],
        iv.stop))
    ([(min_t, offset)], min_t)
  if r.2 < max_t then r.1 ++ [(max_t, offset)] else r.1

/-- Modelled from the spec's words (§4.6), for comparison with
`build_digital_wave`: the per-interval points — a baseline point at the
interval's start when it is past the cursor, the rising edge, the falling
edge and the drop back to baseline — with the cursor advancing to each
interval's end. -/
def specWaveBody (offset : ℚ) : ℚ → List Interval → List (ℚ × ℚ)
  | _, [] => []
  | cur, iv :: rest =>
      (if cur < iv.start then [(iv.start, offset)] else []) ++
        [(iv.start, offset + 1), (iv.stop, offset + 1), (iv.stop, offset)] ++
        specWaveBody offset iv.stop rest

/-- The final cursor position after walking the intervals: the last
interval's end, or `min_t` when there are none. -/
def specCursor (min_t : ℚ) (ivs : List Interval) : ℚ :=
  ivs.foldl (fun _ iv => iv.stop) min_t

/-- Modelled from the spec's words (§4.6): the complete polyline — start at
`(min_time, o)`, the per-interval points, and a final baseline point at
`max_time` when the cursor stops short of it. -/
def spec_polyline (on_intervals : List Interval) (min_t max_t offset : ℚ) :
    List (ℚ × ℚ) :=
  [(min_t, offset)] ++ specWaveBody offset min_t on_intervals ++
    (if specCursor min_t on_intervals < max_t then [(max_t, offset)] else [])

/-- One step of the first pass of group resolution (main.rs:220-232),
restricted to the `signal_to_group` map: an event with a non-empty group
records `signal → group` only when the signal has no recorded group yet
(first-seen-wins). -/
def stgStep (acc : List (String × String)) (log : LogEntry) :
    List (String × String) :=
  match log.group with
  | some grp =>
      if grp = "" then acc
      else if (acc.find? (fun p => p.1 = log.name)).isSome then acc
      else acc ++ [(log.name, grp)]
  | none => acc

/-- The `signal_to_group` map built by the first pass of `recalc`
(main.rs:219-232), as an association list in insertion order. -/
def signal_to_group (logs : List LogEntry) : List (String × String) :=
  logs.foldl stgStep []

/-- The group names for which `recalc` creates a `GroupData` entry
(main.rs:223-226), in first-appearance order (the embedding fixes an order
for the `HashMap` key set; theorems about it only use membership). -/
def groupKeys (logs : List LogEntry) : List String :=
  logs.foldl
    (fun acc log =>
      match log.group with
      | some grp =>
          if grp = "" then acc
          else if grp ∈ acc then acc
          else acc ++ [grp]
      | none => acc) []

/-- The final member list of group `g` after the second pass of `recalc`
(main.rs:233-242): every signal mapped to `g`, sorted lexicographically
(main.rs:240-242).  The `HashMap` iteration order of the second pass does
not affect this value because the member list is deduplicated (the keys of
`signal_to_group` are unique) and sorted at the end. -/
def group_members (logs : List LogEntry) (g : String) : List String :=
  ((((signal_to_group logs).filter (fun p => p.2 = g)).map (fun p => p.1)).mergeSort
    (fun a b => a ≤ b))

/-- The visible-signal walk of `MyApp::update` (main.rs:747-761): group keys
in sorted order, each group's stored member list in order, keeping the
signals that are present in the map and visible. -/
def visible_signals_in_order (groups : List (String × List String))
    (signals : List (String × SignalData)) : List String :=
  ((groups.map (fun p => p.1)).mergeSort (fun a b => a ≤ b)).flatMap
    (fun gk =>
      match groups.find? (fun p => p.1 = gk) with
      | some p => p.2.filter (fun s =>
          match lookupSig signals s with
          | some sig => sig.visible
          | none => false)
      | none => [])

/-- The offset assignment of `MyApp::update` (main.rs:762-768): the `i`-th
(0-indexed) signal of the walked sequence receives vertical offset
`(total - i) * 2 - 1` (usize arithmetic; ℕ subtraction coincides with it
because `i < total`). -/
def assign_offsets (names : List String) : List (String × ℕ) :=
  names.enum.map (fun p => (p.2, (names.length - p.1) * 2 - 1))

/-- The complete layout computation on a visibility change
(main.rs:747-768). -/
def layout_offsets (groups : List (String × List String))
    (signals : List (String × SignalData)) : List (String × ℕ) :=
  assign_offsets (visible_signals_in_order groups signals)

/-- A parsed calendar date-time with millisecond precision, the embedding of
chrono's `NaiveDateTime` restricted to what
`parse_from_str(.., "%Y-%m-%d %H:%M:%S%.3f")` can produce here. -/
structure DateTime where
  year : ℕ
  month : ℕ
  day : ℕ
  hour : ℕ
  minute : ℕ
  second : ℕ
  millis : ℕ
deriving DecidableEq, Repr

/-- Gregorian leap-year rule. -/
def isLeapYear (y : ℕ) : Bool := (y % 4 = 0 ∧ y % 100 ≠ 0) ∨ y % 400 = 0

/-- Days in a month of the proleptic Gregorian calendar. -/
def daysInMonth (y m : ℕ) : ℕ :=
  if m = 2 then (if isLeapYear y then 29 else 28)
  else if m = 4 ∨ m = 6 ∨ m = 9 ∨ m = 11 then 30 else 31

/-- Calendar validation performed by chrono when building the parsed
`NaiveDateTime` (leap seconds and signed/extended years are out of scope of
the expected input format). -/
def validDT (dt : DateTime) : Bool :=
  1 ≤ dt.month ∧ dt.month ≤ 12 ∧ 1 ≤ dt.day ∧ dt.day ≤ daysInMonth dt.year dt.month ∧
    dt.hour ≤ 23 ∧ dt.minute ≤ 59 ∧ dt.second ≤ 59 ∧ dt.millis ≤ 999

/-- Numeric value of a decimal digit character. -/
def digitVal (c : Char) : ℕ := c.toNat - 48

/-- Build and validate a `DateTime` from the digit characters of the fixed
format `YYYY-MM-DD HH:MM:SS` plus a millisecond value. -/
def mkDT (y1 y2 y3 y4 m1 m2 d1 d2 h1 h2 n1 n2 s1 s2 : Char) (ms : ℕ) :
    Option DateTime :=
  if y1.isDigit ∧ y2.isDigit ∧ y3.isDigit ∧ y4.isDigit ∧ m1.isDigit ∧ m2.isDigit ∧
      d1.isDigit ∧ d2.isDigit ∧ h1.isDigit ∧ h2.isDigit ∧ n1.isDigit ∧ n2.isDigit ∧
      s1.isDigit ∧ s2.isDigit then
    let dt : DateTime :=
      ⟨digitVal y1 * 1000 + digitVal y2 * 100 + digitVal y3 * 10 + digitVal y4,
        digitVal m1 * 10 + digitVal m2, digitVal d1 * 10 + digitVal d2,
        digitVal h1 * 10 + digitVal h2, digitVal n1 * 10 + digitVal n2,
        digitVal s1 * 10 + digitVal s2, ms⟩
    if validDT dt then some dt else none
  else none

/-- The embedding of
`chrono::NaiveDateTime::parse_from_str(s, "%Y-%m-%d %H:%M:%S%.3f")` on the
expected inputs: the fixed `YYYY-MM-DD HH:MM:SS` layout with an optional
`.mmm` fraction (the `%.3f` specifier accepts either no fraction or a dot
plus exactly three digits), anything else failing. -/
def parseDateTime (cs : List Char) : Option DateTime :=
  match cs with
  | [y1,y2,y3,y4,'-',m1,m2,'-',d1,d2,' ',h1,h2,':',n1,n2,':',s1,s2] =>
      mkDT y1 y2 y3 y4 m1 m2 d1 d2 h1 h2 n1 n2 s1 s2 0
  | [y1,y2,y3,y4,'-',m1,m2,'-',d1,d2,' ',h1,h2,':',n1,n2,':',s1,s2,'.',f1,f2,f3] =>
      if f1.isDigit ∧ f2.isDigit ∧ f3.isDigit then
        mkDT y1 y2 y3 y4 m1 m2 d1 d2 h1 h2 n1 n2 s1 s2
          (digitVal f1 * 100 + digitVal f2 * 10 + digitVal f3)
      else none
  | _ => none

/-- Days from the epoch 1970-01-01 of a Gregorian civil date, via the
standard era/year-of-era decomposition, shifted by 400 years so all
intermediate arithmetic is on ℕ (one era of 400 years is 146097 days). -/
def daysFromCivil (y m d : ℕ) : ℤ :=
  let y2 := y + 400
  let yp := if m ≤ 2 then y2 - 1 else y2
  let era := yp / 400
  let yoe := yp - era * 400
  let mp := if 2 < m then m - 3 else m + 9
  let doy := (153 * mp + 2) / 5 + d - 1
  let doe := yoe * 365 + yoe / 4 - yoe / 100 + doy
  (era * 146097 + doe : ℤ) - 146097 - 719468

/-- Milliseconds from the epoch of a parsed date-time: the embedding of
`(ndt - epoch).num_milliseconds()` (main.rs:858-862). -/
def dtMillis (dt : DateTime) : ℤ :=
  daysFromCivil dt.year dt.month dt.day * 86400000 +
    (dt.hour * 3600000 + dt.minute * 60000 + dt.second * 1000 + dt.millis : ℕ)

/-- The `ts.replace('T', " ").replace('Z', "")` normalization
(main.rs:857). -/
def normalizeTs (ts : String) : List Char :=
  (ts.data.map (fun c => if c = 'T' then ' ' else c)).filter (fun c => c ≠ 'Z')

/-- Rust `parse_timestamp_to_f64` (main.rs:856-866): the parsed offset in
seconds on success, `0.0` on any parse failure. -/
def parse_timestamp_to_f64 (ts : String) : ℚ :=
  match parseDateTime (normalizeTs ts) with
  | some dt => (dtMillis dt : ℚ) / 1000
  | none => 0

/-- Invariant carried through the interval-construction fold: every interval
accumulated so far satisfies `start <= end`, and every pending ON start is
at or before the time of every event still to be processed. -/
def wfState (S : List (String × SignalData)) (rest : List LogEntry) : Prop :=
  ∀ p ∈ S, (∀ iv ∈ p.2.on_intervals, wfIv iv) ∧
    (∀ st : ℚ, p.2.is_on = some st → ∀ e ∈ rest, st ≤ e.timestamp_num)

theorem mergeLoop_cons (cur iv : Interval) (rest : List Interval) :
    mergeLoop cur (iv :: rest) =
      if iv.start ≤ cur.stop then mergeLoop ⟨cur.start, max cur.stop iv.stop⟩ rest
      else cur :: mergeLoop iv rest := by
  simp only [mergeLoop]
  rcases le_or_lt iv.stop cur.stop with h | h
  · simp [not_lt.mpr h, max_eq_left h]
  · simp [h, max_eq_right h.le]

theorem mergeLoop_start_lb {c : ℚ} (l : List Interval) (cur : Interval)
    (hl : ∀ a ∈ l, c ≤ a.start) (hcur : c ≤ cur.start) :
    ∀ x ∈ mergeLoop cur l, c ≤ x.start := by
  induction l generalizing cur with
  | nil =>
      intro x hx
      simp only [mergeLoop, List.mem_singleton] at hx
      subst hx; exact hcur
  | cons iv rest ih =>
      intro x hx
      rw [mergeLoop_cons] at hx
      by_cases h : iv.start ≤ cur.stop
      · rw [if_pos h] at hx
        exact ih ⟨cur.start, max cur.stop iv.stop⟩
          (fun a ha => hl a (List.mem_cons_of_mem _ ha)) hcur x hx
      · rw [if_neg h] at hx
        rcases List.mem_cons.mp hx with rfl | hx
        · exact hcur
        · exact ih iv (fun a ha => hl a (List.mem_cons_of_mem _ ha))
            (hl iv (List.mem_cons_self _ _)) x hx

theorem mergeLoop_pairwise (l : List Interval) (cur : Interval)
    (hsort : l.Pairwise leStart) (hlb : ∀ a ∈ l, cur.start ≤ a.start) :
    (mergeLoop cur l).Pairwise (fun a b => sep a b ∧ leStart a b) := by
  induction l generalizing cur with
  | nil => simp [mergeLoop]
  | cons iv rest ih =>
      obtain ⟨hiv, hsr⟩ := List.pairwise_cons.mp hsort
      rw [mergeLoop_cons]
      by_cases h : iv.start ≤ cur.stop
      · rw [if_pos h]
        exact ih ⟨cur.start, max cur.stop iv.stop⟩ hsr
          (fun a ha => hlb a (List.mem_cons_of_mem _ ha))
      · rw [if_neg h]
        refine List.pairwise_cons.mpr ⟨?_, ih iv hsr hiv⟩
        intro x hx
        have hxs : iv.start ≤ x.start :=
          mergeLoop_start_lb rest iv hiv le_rfl x hx
        exact ⟨lt_of_lt_of_le (not_le.mp h) hxs,
          le_trans (hlb iv (List.mem_cons_self _ _)) hxs⟩

theorem mergeLoop_covers {t : ℚ} (l : List Interval) (cur : Interval)
    (hsort : l.Pairwise leStart) (hlb : ∀ a ∈ l, cur.start ≤ a.start)
    (hc : coveredBy (cur :: l) t) :
    coveredBy (mergeLoop cur l) t := by
  induction l generalizing cur with
  | nil => simpa [mergeLoop, coveredBy] using hc
  | cons iv rest ih =>
      obtain ⟨hiv, hsr⟩ := List.pairwise_cons.mp hsort
      rw [mergeLoop_cons]
      by_cases h : iv.start ≤ cur.stop
      · rw [if_pos h]
        apply ih ⟨cur.start, max cur.stop iv.stop⟩ hsr
          (fun a ha => hlb a (List.mem_cons_of_mem _ ha))
        obtain ⟨jv, hjv, hcov⟩ := hc
        rcases List.mem_cons.mp hjv with hjc | hjv
        · have hcov' : covers cur t := by rw [hjc] at hcov; exact hcov
          exact ⟨⟨cur.start, max cur.stop iv.stop⟩, List.mem_cons_self _ _,
            hcov'.1, le_trans hcov'.2 (le_max_left _ _)⟩
        rcases List.mem_cons.mp hjv with hji | hjv
        · have hcov' : covers iv t := by rw [hji] at hcov; exact hcov
          exact ⟨⟨cur.start, max cur.stop iv.stop⟩, List.mem_cons_self _ _,
            le_trans (hlb iv (List.mem_cons_self _ _)) hcov'.1,
            le_trans hcov'.2 (le_max_right _ _)⟩
        · exact ⟨jv, List.mem_cons_of_mem _ hjv, hcov⟩
      · rw [if_neg h]
        obtain ⟨jv, hjv, hcov⟩ := hc
        rcases List.mem_cons.mp hjv with hjc | hjv
        · have hcov' : covers cur t := by rw [hjc] at hcov; exact hcov
          exact ⟨cur, List.mem_cons_self _ _, hcov'⟩
        · obtain ⟨kv, hkv, hkc⟩ := ih iv hsr hiv ⟨jv, hjv, hcov⟩
          exact ⟨kv, List.mem_cons_of_mem _ hkv, hkc⟩

theorem mergeAll_pairwise {l : List Interval} (h : l.Pairwise leStart) :
    (mergeAll l).Pairwise (fun a b => sep a b ∧ leStart a b) := by
  cases l with
  | nil => simp [mergeAll]
  | cons iv rest =>
      exact mergeLoop_pairwise rest iv (List.pairwise_cons.mp h).2
        (List.pairwise_cons.mp h).1

theorem mergeAll_covers {l : List Interval} {t : ℚ} (h : l.Pairwise leStart)
    (hc : coveredBy l t) : coveredBy (mergeAll l) t := by
  cases l with
  | nil => simp [coveredBy] at hc
  | cons iv rest =>
      exact mergeLoop_covers rest iv (List.pairwise_cons.mp h).2
        (List.pairwise_cons.mp h).1 hc

theorem pairwise_leStart_mergeSort (l : List Interval) :
    (l.mergeSort ivLe).Pairwise leStart := by
  have h := @List.sorted_mergeSort Interval ivLe
    (fun a b c h1 h2 => by
      simp only [ivLe, decide_eq_true_eq] at *
      exact le_trans h1 h2)
    (fun a b => by
      simp only [ivLe, Bool.or_eq_true, decide_eq_true_eq]
      exact le_total _ _) l
  exact h.imp (fun hab => by simpa [ivLe, decide_eq_true_eq] using hab)

theorem coveredBy_mergeSort {l : List Interval} {t : ℚ} (h : coveredBy l t) :
    coveredBy (l.mergeSort ivLe) t := by
  obtain ⟨iv, hiv, hc⟩ := h
  exact ⟨iv, List.mem_mergeSort.mpr hiv, hc⟩

/-- C1 — for every raw interval list, every time point covered by some input
interval is covered by some interval of `merge_on_intervals` (no information
loss), and the merged output is sorted ascending by `start` with
`merged[i].end < merged[i+1].start` strictly for every adjacent pair. -/
theorem merge_coverage_and_separation (l : List Interval) :
    (∀ t : ℚ, coveredBy l t → coveredBy (merge_on_intervals l) t) ∧
    (merge_on_intervals l).Pairwise leStart ∧
    (merge_on_intervals l).Chain' sep := by
  have hs := pairwise_leStart_mergeSort l
  have hp := mergeAll_pairwise hs
  refine ⟨?_, ?_, ?_⟩
  · intro t ht
    exact mergeAll_covers hs (coveredBy_mergeSort ht)
  · exact hp.imp (fun h => h.2)
  · exact (hp.imp (fun h => h.1)).chain'

unseal List.merge List.mergeSort in
/-- Witness for C1: the point `4`, covered by the input `[(0,5), (3,8)]`,
is covered by the merged output. -/
theorem merge_coverage_and_separation_witness :
    coveredBy (merge_on_intervals [⟨0,5⟩, ⟨3,8⟩]) 4 :=
  (merge_coverage_and_separation [⟨0,5⟩, ⟨3,8⟩]).1 4 (by decide)

theorem mergeLoop_of_chain_sep (l : List Interval) (cur : Interval)
    (h : List.Chain' sep (cur :: l)) : mergeLoop cur l = cur :: l := by
  induction l generalizing cur with
  | nil => simp [mergeLoop]
  | cons iv rest ih =>
      have h1 : sep cur iv := (List.chain'_cons.mp h).1
      rw [mergeLoop_cons, if_neg (not_le.mpr h1), ih iv (List.chain'_cons.mp h).2]

theorem mergeAll_of_chain_sep {l : List Interval} (h : List.Chain' sep l) :
    mergeAll l = l := by
  cases l with
  | nil => rfl
  | cons iv rest => exact mergeLoop_of_chain_sep rest iv h

/-- C3 — merging is idempotent: running `merge_on_intervals` on its own output
returns that output unchanged, for every input interval list. -/
theorem merge_idempotent (l : List Interval) :
    merge_on_intervals (merge_on_intervals l) = merge_on_intervals l := by
  have hp := mergeAll_pairwise (pairwise_leStart_mergeSort l)
  have hsorted : (merge_on_intervals l).Pairwise leStart := hp.imp (fun h => h.2)
  have hchain : (merge_on_intervals l).Chain' sep := (hp.imp (fun h => h.1)).chain'
  have hsort_eq : (merge_on_intervals l).mergeSort ivLe = merge_on_intervals l :=
    List.mergeSort_of_sorted
      (hsorted.imp (fun hab => by simpa [ivLe, decide_eq_true_eq] using hab))
  calc merge_on_intervals (merge_on_intervals l)
      = mergeAll ((merge_on_intervals l).mergeSort ivLe) := rfl
    _ = mergeAll (merge_on_intervals l) := by rw [hsort_eq]
    _ = merge_on_intervals l := mergeAll_of_chain_sep hchain

theorem mergeLoop_tail_congr {L1 L2 : List Interval}
    (h : ∀ c : Interval, mergeLoop c L1 = mergeLoop c L2) (hd cur : Interval) :
    mergeLoop cur (hd :: L1) = mergeLoop cur (hd :: L2) := by
  rw [mergeLoop_cons, mergeLoop_cons]
  by_cases hh : hd.start ≤ cur.stop
  · rw [if_pos hh, if_pos hh, h]
  · rw [if_neg hh, if_neg hh, h]

theorem mergeLoop_swap {a b : Interval} (hab : a.start = b.start)
    (ha : wfIv a) (hb : wfIv b) (L : List Interval) (cur : Interval) :
    mergeLoop cur (a :: b :: L) = mergeLoop cur (b :: a :: L) := by
  rw [mergeLoop_cons cur a, mergeLoop_cons cur b]
  by_cases h : a.start ≤ cur.stop
  · have h' : b.start ≤ cur.stop := hab ▸ h
    rw [if_pos h, if_pos h', mergeLoop_cons ⟨cur.start, max cur.stop a.stop⟩ b,
      mergeLoop_cons ⟨cur.start, max cur.stop b.stop⟩ a,
      if_pos (le_trans h' (le_max_left _ _)), if_pos (le_trans h (le_max_left _ _))]
    show mergeLoop ⟨cur.start, max (max cur.stop a.stop) b.stop⟩ L
      = mergeLoop ⟨cur.start, max (max cur.stop b.stop) a.stop⟩ L
    rw [Max.right_comm]
  · have h' : ¬ b.start ≤ cur.stop := hab ▸ h
    rw [if_neg h, if_neg h', mergeLoop_cons a b, mergeLoop_cons b a]
    have hba : b.start ≤ a.stop := hab ▸ ha
    have hab' : a.start ≤ b.stop := hab.symm ▸ hb
    rw [if_pos hba, if_pos hab']
    show cur :: mergeLoop ⟨a.start, max a.stop b.stop⟩ L
      = cur :: mergeLoop ⟨b.start, max b.stop a.stop⟩ L
    rw [hab, max_comm]

theorem mergeLoop_pull (t : List Interval) (x y : Interval)
    (hys : y.start = x.start) :
    ∀ (cur : Interval), (x :: t).Pairwise leStart → (∀ a ∈ x :: t, wfIv a) →
      y ∈ t → mergeLoop cur (x :: t) = mergeLoop cur (y :: x :: t.erase y) := by
  induction t with
  | nil => intro cur _ _ hy; cases hy
  | cons a t' ih =>
      intro cur hsort hwf hy
      have hwx : wfIv x := hwf x (List.mem_cons_self _ _)
      have hwa : wfIv a := hwf a (List.mem_cons_of_mem _ (List.mem_cons_self _ _))
      have hwy : wfIv y := hwf y (List.mem_cons_of_mem _ hy)
      by_cases hya : y = a
      · subst hya
        rw [List.erase_cons_head]
        exact mergeLoop_swap hys.symm hwx hwy _ cur
      · have hyt' : y ∈ t' := by
          rcases List.mem_cons.mp hy with h | h
          · exact absurd h hya
          · exact h
        have hsx : x.start ≤ a.start :=
          List.rel_of_pairwise_cons hsort (List.mem_cons_self _ _)
        have hay : a.start ≤ y.start :=
          List.rel_of_pairwise_cons hsort.of_cons hyt'
        have has : a.start = x.start := le_antisymm (le_of_le_of_eq hay hys) hsx
        have herase : (a :: t').erase y = a :: t'.erase y := by
          rw [List.erase_cons]
          simp [Ne.symm hya]
        have hsort' : (x :: t').Pairwise leStart := by
          refine List.pairwise_cons.mpr ⟨?_, hsort.of_cons.of_cons⟩
          intro b hb
          exact List.rel_of_pairwise_cons hsort (List.mem_cons_of_mem _ hb)
        have hwf' : ∀ b ∈ x :: t', wfIv b := by
          intro b hb
          rcases List.mem_cons.mp hb with h | h
          · exact h ▸ hwx
          · exact hwf b (List.mem_cons_of_mem _ (List.mem_cons_of_mem _ h))
        have ihx : ∀ c : Interval,
            mergeLoop c (x :: t') = mergeLoop c (y :: x :: t'.erase y) :=
          fun c => ih c hsort' hwf' hyt'
        calc mergeLoop cur (x :: a :: t')
            = mergeLoop cur (a :: x :: t') := mergeLoop_swap has.symm hwx hwa _ cur
          _ = mergeLoop cur (a :: y :: x :: t'.erase y) :=
              mergeLoop_tail_congr ihx a cur
          _ = mergeLoop cur (y :: a :: x :: t'.erase y) :=
              mergeLoop_swap (has.trans hys.symm) hwa hwy _ cur
          _ = mergeLoop cur (y :: x :: a :: t'.erase y) :=
              mergeLoop_tail_congr
                (fun c => mergeLoop_swap has hwa hwx _ c) y cur
          _ = mergeLoop cur (y :: x :: (a :: t').erase y) := by rw [herase]

theorem mergeLoop_perm_eq (n : ℕ) :
    ∀ (L1 L2 : List Interval), L1.length ≤ n →
      L1.Pairwise leStart → L2.Pairwise leStart → L1.Perm L2 →
      (∀ a ∈ L1, wfIv a) → ∀ cur, mergeLoop cur L1 = mergeLoop cur L2 := by
  induction n with
  | zero =>
      intro L1 L2 hlen _ _ hp _ cur
      have h1 : L1 = [] := List.length_eq_zero.mp (Nat.le_zero.mp hlen)
      subst h1
      rw [hp.symm.eq_nil]
  | succ n ih =>
      intro L1 L2 hlen h1 h2 hp hwf cur
      cases L1 with
      | nil => rw [hp.symm.eq_nil]
      | cons x t1 =>
          cases L2 with
          | nil => exact absurd hp.eq_nil (by simp)
          | cons y t2 =>
              by_cases hxy : x = y
              · subst hxy
                have ht : t1.Perm t2 := hp.cons_inv
                exact mergeLoop_tail_congr
                  (fun c => ih t1 t2 (by simpa using Nat.le_of_succ_le_succ hlen)
                    h1.of_cons h2.of_cons ht
                    (fun a ha => hwf a (List.mem_cons_of_mem _ ha)) c) x cur
              · have hyL1 : y ∈ x :: t1 := hp.mem_iff.mpr (List.mem_cons_self _ _)
                have hyt1 : y ∈ t1 := by
                  rcases List.mem_cons.mp hyL1 with h | h
                  · exact absurd h.symm hxy
                  · exact h
                have hxL2 : x ∈ y :: t2 := hp.mem_iff.mp (List.mem_cons_self _ _)
                have hxt2 : x ∈ t2 := by
                  rcases List.mem_cons.mp hxL2 with h | h
                  · exact absurd h hxy
                  · exact h
                have hys : y.start = x.start :=
                  le_antisymm (List.rel_of_pairwise_cons h2 hxt2)
                    (List.rel_of_pairwise_cons h1 hyt1)
                have hperm' : (x :: t1.erase y).Perm t2 := by
                  have e1 : t1.Perm (y :: t1.erase y) := List.perm_cons_erase hyt1
                  have e2 : (x :: t1).Perm (y :: x :: t1.erase y) :=
                    (e1.cons x).trans (List.Perm.swap y x _)
                  exact (e2.symm.trans hp).cons_inv
                have hsub : (x :: t1.erase y).Sublist (x :: t1) :=
                  (List.erase_sublist y t1).cons₂ x
                have hlen' : (x :: t1.erase y).length ≤ n := by
                  have h0 : 0 < t1.length := List.length_pos_of_mem hyt1
                  have he : (t1.erase y).length = t1.length - 1 :=
                    List.length_erase_of_mem hyt1
                  simp only [List.length_cons] at hlen ⊢
                  omega
                have hsort' : (x :: t1.erase y).Pairwise leStart :=
                  h1.sublist hsub
                have hwf' : ∀ a ∈ x :: t1.erase y, wfIv a :=
                  fun a ha => hwf a (hsub.subset ha)
                calc mergeLoop cur (x :: t1)
                    = mergeLoop cur (y :: x :: t1.erase y) :=
                      mergeLoop_pull t1 x y hys cur h1 hwf hyt1
                  _ = mergeLoop cur (y :: t2) :=
                      mergeLoop_tail_congr
                        (fun c => ih (x :: t1.erase y) t2 hlen' hsort' h2.of_cons
                          hperm' hwf' c) y cur

theorem mergeAll_head_fuse {x : Interval} (hx : wfIv x) (t : List Interval) :
    mergeAll (x :: t) = mergeLoop ⟨x.start, x.start⟩ (x :: t) := by
  show mergeLoop x t = _
  rw [mergeLoop_cons, if_pos le_rfl]
  have hmax : max (⟨x.start, x.start⟩ : Interval).stop x.stop = x.stop :=
    max_eq_right hx
  rw [hmax]

/-- C4 — the merger is order-independent: for every raw interval list (whose
intervals satisfy the data-model invariant `start <= end`) and every
permutation of it, merging the permuted list yields exactly the same result. -/
theorem merge_perm_invariant (l l' : List Interval) (hperm : l.Perm l')
    (hwf : ∀ iv ∈ l, wfIv iv) :
    merge_on_intervals l = merge_on_intervals l' := by
  have h1 := pairwise_leStart_mergeSort l
  have h2 := pairwise_leStart_mergeSort l'
  have hp : (l.mergeSort ivLe).Perm (l'.mergeSort ivLe) :=
    (List.mergeSort_perm l ivLe).trans (hperm.trans (List.mergeSort_perm l' ivLe).symm)
  have hwf1 : ∀ a ∈ l.mergeSort ivLe, wfIv a :=
    fun a ha => hwf a (List.mem_mergeSort.mp ha)
  show mergeAll (l.mergeSort ivLe) = mergeAll (l'.mergeSort ivLe)
  cases hL1 : l.mergeSort ivLe with
  | nil =>
      rw [hL1] at hp
      rw [hp.symm.eq_nil]
  | cons x t1 =>
      rw [hL1] at hp h1 hwf1
      cases hL2 : l'.mergeSort ivLe with
      | nil =>
          rw [hL2] at hp
          exact absurd hp.eq_nil (by simp)
      | cons y t2 =>
          rw [hL2] at hp h2
          have hwx : wfIv x := hwf1 x (List.mem_cons_self _ _)
          have hwy : wfIv y := hwf1 y (hp.mem_iff.mpr (List.mem_cons_self _ _))
          have hxy : x.start = y.start := by
            have hyL1 : y ∈ x :: t1 := hp.mem_iff.mpr (List.mem_cons_self _ _)
            have hxL2 : x ∈ y :: t2 := hp.mem_iff.mp (List.mem_cons_self _ _)
            have h1' : x.start ≤ y.start := by
              rcases List.mem_cons.mp hyL1 with h | h
              · rw [h]
              · exact List.rel_of_pairwise_cons h1 h
            have h2' : y.start ≤ x.start := by
              rcases List.mem_cons.mp hxL2 with h | h
              · rw [h]
              · exact List.rel_of_pairwise_cons h2 h
            exact le_antisymm h1' h2'
          calc mergeAll (x :: t1)
              = mergeLoop ⟨x.start, x.start⟩ (x :: t1) := mergeAll_head_fuse hwx t1
            _ = mergeLoop ⟨x.start, x.start⟩ (y :: t2) :=
                mergeLoop_perm_eq (x :: t1).length (x :: t1) (y :: t2) le_rfl
                  h1 h2 hp hwf1 _
            _ = mergeLoop ⟨y.start, y.start⟩ (y :: t2) := by rw [hxy]
            _ = mergeAll (y :: t2) := (mergeAll_head_fuse hwy t2).symm

unseal List.merge List.mergeSort in
/-- Witness for C4: the permuted list `[(5,6), (0,1), (3,8)]` of
`[(0,1), (3,8), (5,6)]` merges to the identical result. -/
theorem merge_perm_invariant_witness :
    merge_on_intervals [⟨0,1⟩, ⟨3,8⟩, ⟨5,6⟩] = merge_on_intervals [⟨5,6⟩, ⟨0,1⟩, ⟨3,8⟩] :=
  merge_perm_invariant [⟨0,1⟩, ⟨3,8⟩, ⟨5,6⟩] [⟨5,6⟩, ⟨0,1⟩, ⟨3,8⟩]
    (by decide) (by decide)

theorem lookupSig_updateSig (signals : List (String × SignalData)) (n : String)
    (f : SignalData → SignalData) :
    lookupSig (updateSig signals n f) n = (lookupSig signals n).map f := by
  induction signals with
  | nil => rfl
  | cons p rest ih =>
      simp only [updateSig, List.map_cons] at ih ⊢
      by_cases h : p.1 = n
      · rw [if_pos h]
        simp [lookupSig, h]
      · rw [if_neg h]
        simp only [lookupSig, if_neg h]
        exact ih

theorem lookupSig_updateSig_ne (signals : List (String × SignalData)) {n m : String}
    (f : SignalData → SignalData) (h : m ≠ n) :
    lookupSig (updateSig signals n f) m = lookupSig signals m := by
  induction signals with
  | nil => rfl
  | cons p rest ih =>
      simp only [updateSig, List.map_cons] at ih ⊢
      by_cases hp : p.1 = n
      · have hm : ¬ p.1 = m := by rw [hp]; exact fun he => h he.symm
        rw [if_pos hp]
        simp only [lookupSig, if_neg hm]
        exact ih
      · rw [if_neg hp]
        by_cases hm : p.1 = m
        · simp [lookupSig, hm]
        · simp only [lookupSig, if_neg hm]
          exact ih

theorem updateSig_congr_id (signals : List (String × SignalData)) (n : String)
    (f : SignalData → SignalData)
    (h : ∀ p ∈ signals, p.1 = n → f p.2 = p.2) : updateSig signals n f = signals := by
  induction signals with
  | nil => rfl
  | cons p rest ih =>
      simp only [updateSig, List.map_cons]
      have h1 : (if p.1 = n then (p.1, f p.2) else p) = p := by
        by_cases hp : p.1 = n
        · rw [if_pos hp, h p (List.mem_cons_self _ _) hp]
        · rw [if_neg hp]
      rw [h1]
      have h2 := ih (fun q hq hqn => h q (List.mem_cons_of_mem _ hq) hqn)
      simp only [updateSig] at h2
      rw [h2]

theorem lookupSig_unique {signals : List (String × SignalData)} {n : String}
    (hN : (signals.map Prod.fst).Nodup) {p : String × SignalData}
    (hp : p ∈ signals) (hn : p.1 = n) : lookupSig signals n = some p.2 := by
  induction signals with
  | nil => cases hp
  | cons q rest ih =>
      simp only [List.map_cons, List.nodup_cons] at hN
      rcases List.mem_cons.mp hp with heq | hmem
      · subst heq
        simp [lookupSig, hn]
      · by_cases hq : q.1 = n
        · exfalso
          apply hN.1
          rw [hq, ← hn]
          exact List.mem_map_of_mem Prod.fst hmem
        · simp only [lookupSig, if_neg hq]
          exact ih hN.2 hmem

/-- C2 — behaviour of the event classifier on an ONOFF event: an "ON" value
records the event time as the signal's pending open start (overwriting any
prior one); an "OFF" value with a pending open start `s0` appends the
interval `(s0, time)` to the signal's raw interval list and clears the
pending state; an "OFF" with no pending open start leaves the whole signal
map unchanged. -/
theorem onoff_classifier (signals : List (String × SignalData)) (log : LogEntry)
    (sig : SignalData) (hk : log.kind = "ONOFF")
    (hN : (signals.map Prod.fst).Nodup)
    (hs : lookupSig signals log.name = some sig) :
    (log.value = JsonValue.str "ON" →
      lookupSig (update_signal_data signals log) log.name =
        some { sig with is_on := some log.timestamp_num }) ∧
    (∀ s0 : ℚ, log.value = JsonValue.str "OFF" → sig.is_on = some s0 →
      lookupSig (update_signal_data signals log) log.name =
        some { sig with on_intervals := sig.on_intervals ++ [⟨s0, log.timestamp_num⟩],
                        is_on := none }) ∧
    (log.value = JsonValue.str "OFF" → sig.is_on = none →
      update_signal_data signals log = signals) := by
  refine ⟨?_, ?_, ?_⟩
  · intro hv
    have hupd : update_signal_data signals log =
        updateSig signals log.name (fun s => { s with is_on := some log.timestamp_num }) := by
      simp [update_signal_data, hk, hv]
    rw [hupd, lookupSig_updateSig, hs]
    rfl
  · intro s0 hv hio
    have hupd : update_signal_data signals log =
        updateSig signals log.name (fun s =>
          match s.is_on with
          | some st =>
              { s with on_intervals := s.on_intervals ++ [⟨st, log.timestamp_num⟩],
                       is_on := none }
          | none => s) := by
      simp [update_signal_data, hk, hv]
    rw [hupd, lookupSig_updateSig, hs]
    simp [hio]
  · intro hv hio
    have hupd : update_signal_data signals log =
        updateSig signals log.name (fun s =>
          match s.is_on with
          | some st =>
              { s with on_intervals := s.on_intervals ++ [⟨st, log.timestamp_num⟩],
                       is_on := none }
          | none => s) := by
      simp [update_signal_data, hk, hv]
    rw [hupd]
    apply updateSig_congr_id
    intro p hp hpn
    have := lookupSig_unique hN hp hpn
    rw [hs] at this
    rw [(Option.some.inj this).symm, hio]

/-- Witness for C2: the single event `OFF@1` on signal "X" with no pending
open start leaves the signal map unchanged, so the signal's interval list
stays `[]`. -/
theorem onoff_classifier_witness :
    update_signal_data [("X", initSignal "X")]
        ⟨"ONOFF", "X", none, JsonValue.str "OFF", 1⟩ = [("X", initSignal "X")] :=
  (onoff_classifier [("X", initSignal "X")]
    ⟨"ONOFF", "X", none, JsonValue.str "OFF", 1⟩ (initSignal "X")
    rfl (by decide) (by decide)).2.2 rfl rfl

/-- C9 — a PULSE event with a numeric value appends exactly one interval
`(time, time + 1/1000)` to the signal's raw interval list; the fixed pulse
width `ε = 0.001` is independent of the numeric payload `x`. -/
theorem pulse_classifier (signals : List (String × SignalData)) (log : LogEntry)
    (sig : SignalData) (x : ℚ) (hk : log.kind = "PULSE")
    (hv : log.value = JsonValue.num x)
    (hs : lookupSig signals log.name = some sig) :
    lookupSig (update_signal_data signals log) log.name =
      some { sig with on_intervals :=
        sig.on_intervals ++ [⟨log.timestamp_num, log.timestamp_num + 1/1000⟩] } := by
  have hupd : update_signal_data signals log =
      updateSig signals log.name (fun s =>
        { s with on_intervals :=
            s.on_intervals ++ [⟨log.timestamp_num, log.timestamp_num + 1/1000⟩] }) := by
    simp [update_signal_data, hk, hv]
  rw [hupd, lookupSig_updateSig, hs]
  rfl

/-- Witness for C9: a PULSE at `t = 2` with payload `999` yields the single
interval `(2, 2 + 1/1000)`. -/
theorem pulse_classifier_witness :
    lookupSig (update_signal_data [("X", initSignal "X")]
        ⟨"PULSE", "X", none, JsonValue.num 999, 2⟩) "X" =
      some { initSignal "X" with on_intervals := [⟨2, 2 + 1/1000⟩] } :=
  pulse_classifier [("X", initSignal "X")] ⟨"PULSE", "X", none, JsonValue.num 999, 2⟩
    (initSignal "X") 999 rfl rfl (by decide)

theorem sortStr_pairwise (l : List String) :
    (l.mergeSort (fun a b => a ≤ b)).Pairwise (· ≤ ·) := by
  have h := @List.sorted_mergeSort String (fun a b : String => a ≤ b)
    (fun a b c h1 h2 => by
      simp only [decide_eq_true_eq] at *
      exact le_trans h1 h2)
    (fun a b => by
      simp only [Bool.or_eq_true, decide_eq_true_eq]
      exact le_total a b) l
  exact h.imp (fun hab => by simpa using hab)

theorem sorted_nodup_eq_of_mem_iff {l1 l2 : List String}
    (hs1 : l1.Pairwise (· ≤ ·)) (hs2 : l2.Pairwise (· ≤ ·))
    (hn1 : l1.Nodup) (hn2 : l2.Nodup)
    (hm : ∀ a, a ∈ l1 ↔ a ∈ l2) : l1 = l2 :=
  List.eq_of_perm_of_sorted ((List.perm_ext_iff_of_nodup hn1 hn2).mpr hm) hs1 hs2

theorem unique_names_mem (logs : List LogEntry) (a : String) :
    a ∈ unique_names logs ↔ a ∈ logs.map (fun l => l.name) := by
  simp [unique_names, List.mem_dedup, List.mem_mergeSort]

theorem unique_names_append_on (logs : List LogEntry) (e : LogEntry)
    (hmem : e.name ∈ logs.map (fun l => l.name)) :
    unique_names (logs ++ [e]) = unique_names logs := by
  apply sorted_nodup_eq_of_mem_iff
  · exact List.Pairwise.sublist (List.dedup_sublist _) (sortStr_pairwise _)
  · exact List.Pairwise.sublist (List.dedup_sublist _) (sortStr_pairwise _)
  · exact List.nodup_dedup _
  · exact List.nodup_dedup _
  · intro a
    rw [unique_names_mem, unique_names_mem]
    simp only [List.map_append, List.map_cons, List.map_nil, List.mem_append,
      List.mem_singleton]
    constructor
    · intro h
      rcases h with h | h
      · exact h
      · rw [h]; exact hmem
    · intro h
      exact Or.inl h

theorem on_update_keeps_intervals (S : List (String × SignalData)) (e : LogEntry)
    (hk : e.kind = "ONOFF") (hv : e.value = JsonValue.str "ON") (n : String) :
    (lookupSig (update_signal_data S e) n).map (fun s => s.on_intervals) =
      (lookupSig S n).map (fun s => s.on_intervals) := by
  have hupd : update_signal_data S e =
      updateSig S e.name (fun s => { s with is_on := some e.timestamp_num }) := by
    simp [update_signal_data, hk, hv]
  rw [hupd]
  by_cases hn : n = e.name
  · rw [hn, lookupSig_updateSig]
    cases lookupSig S e.name <;> rfl
  · rw [lookupSig_updateSig_ne _ _ hn]

/-- C10 — an ON event with no subsequent matching OFF contributes no
interval: appending a final unmatched ON event to the event stream leaves
every signal's merged interval list after a full rebuild unchanged, and
hence leaves every generated waveform polyline unchanged. -/
theorem unmatched_on_discarded (logs : List LogEntry) (e : LogEntry)
    (hk : e.kind = "ONOFF") (hv : e.value = JsonValue.str "ON")
    (hmem : e.name ∈ logs.map (fun l => l.name)) (n : String) :
    recalcMergedIntervals (logs ++ [e]) n = recalcMergedIntervals logs n ∧
    (∀ mn mx o : ℚ,
      (recalcMergedIntervals (logs ++ [e]) n).map
          (fun ivs => build_digital_wave ivs mn mx o) =
        (recalcMergedIntervals logs n).map
          (fun ivs => build_digital_wave ivs mn mx o)) := by
  have hinit : initSignals (logs ++ [e]) = initSignals logs := by
    unfold initSignals
    rw [unique_names_append_on logs e hmem]
  have hbuild : buildSignals (logs ++ [e]) = update_signal_data (buildSignals logs) e := by
    unfold buildSignals
    rw [hinit, List.foldl_append]
    rfl
  have hkeep := on_update_keeps_intervals (buildSignals logs) e hk hv n
  have h1 : ∀ S : List (String × SignalData),
      (lookupSig S n).map (fun s => merge_on_intervals s.on_intervals) =
        ((lookupSig S n).map (fun s => s.on_intervals)).map merge_on_intervals := by
    intro S
    cases lookupSig S n <;> rfl
  have hmain : recalcMergedIntervals (logs ++ [e]) n = recalcMergedIntervals logs n := by
    unfold recalcMergedIntervals
    rw [hbuild, h1, h1, hkeep]
  exact ⟨hmain, fun mn mx o => by rw [hmain]⟩

/-- Witness for C10: appending the unmatched event `ON@7` for signal "X"
after `ON@0, OFF@5` does not change the rebuilt merged interval list. -/
theorem unmatched_on_discarded_witness :
    recalcMergedIntervals
        ([⟨"ONOFF", "X", none, JsonValue.str "ON", 0⟩,
          ⟨"ONOFF", "X", none, JsonValue.str "OFF", 5⟩] ++
          [⟨"ONOFF", "X", none, JsonValue.str "ON", 7⟩]) "X" =
      recalcMergedIntervals
        [⟨"ONOFF", "X", none, JsonValue.str "ON", 0⟩,
          ⟨"ONOFF", "X", none, JsonValue.str "OFF", 5⟩] "X" :=
  (unmatched_on_discarded
    [⟨"ONOFF", "X", none, JsonValue.str "ON", 0⟩,
      ⟨"ONOFF", "X", none, JsonValue.str "OFF", 5⟩]
    ⟨"ONOFF", "X", none, JsonValue.str "ON", 7⟩
    rfl rfl (by decide) "X").1

theorem wave_foldl_spec (o : ℚ) (l : List Interval) :
    ∀ (acc : List (ℚ × ℚ)) (c : ℚ),
      l.foldl
        (fun (acc : List (ℚ × ℚ) × ℚ) iv =>
          ((if acc.2 < iv.start then acc.1 ++ [(iv.start, o)] else acc.1) ++
            [(iv.start, o + 1), (iv.stop, o + 1), (iv.stop, o)], iv.stop))
        (acc, c) =
      (acc ++ specWaveBody o c l, specCursor c l) := by
  induction l with
  | nil =>
      intro acc c
      simp [specWaveBody, specCursor]
  | cons iv rest ih =>
      intro acc c
      simp only [List.foldl_cons]
      rw [ih]
      have hcur : specCursor c (iv :: rest) = specCursor iv.stop rest := rfl
      rw [hcur]
      by_cases h : c < iv.start
      · simp [specWaveBody, h, List.append_assoc]
      · simp [specWaveBody, h, List.append_assoc]

/-- C7 — the waveform builder returns exactly the polyline the spec
describes: the initial baseline point at `min_time`, then per interval (in
list order) a baseline point when the interval's start is past the cursor,
the rising edge, the falling edge and the drop, and a final baseline point
at `max_time` when the cursor stops short of it.  It is a pure function of
its input and performs no merging. -/
theorem build_digital_wave_spec (on_intervals : List Interval)
    (min_t max_t offset : ℚ) :
    build_digital_wave on_intervals min_t max_t offset =
      spec_polyline on_intervals min_t max_t offset := by
  unfold build_digital_wave spec_polyline
  rw [wave_foldl_spec]
  by_cases h : specCursor min_t on_intervals < max_t
  · simp [h, List.append_assoc]
  · simp [h]

/-- C5 — for the visible-signal sequence of length `N` walked in sorted
group order and member order, the assigned offsets are exactly
`(N - i) * 2 - 1` for the `i`-th signal, hence pairwise distinct and all in
`{1, 3, ..., 2N - 1}` (odd, between `1` and `2N - 1`). -/
theorem layout_unique_odd_offsets (groups : List (String × List String))
    (signals : List (String × SignalData)) :
    ((layout_offsets groups signals).map (fun p => p.2) =
      (List.range (visible_signals_in_order groups signals).length).map
        (fun i => ((visible_signals_in_order groups signals).length - i) * 2 - 1)) ∧
    ((layout_offsets groups signals).map (fun p => p.2)).Nodup ∧
    (∀ o ∈ (layout_offsets groups signals).map (fun p => p.2),
      Odd o ∧ 1 ≤ o ∧ o ≤ 2 * (visible_signals_in_order groups signals).length - 1) := by
  set vs := visible_signals_in_order groups signals with hvs
  have hoff : (layout_offsets groups signals).map (fun p => p.2) =
      (List.range vs.length).map (fun i => (vs.length - i) * 2 - 1) := by
    unfold layout_offsets assign_offsets
    rw [← hvs, List.map_map]
    show vs.enum.map ((fun i => (vs.length - i) * 2 - 1) ∘ Prod.fst) = _
    rw [← List.map_map, List.enum_map_fst]
  refine ⟨hoff, ?_, ?_⟩
  · rw [hoff]
    refine List.Nodup.map_on ?_ (List.nodup_range _)
    intro i hi j hj hij
    rw [List.mem_range] at hi hj
    omega
  · intro o ho
    rw [hoff] at ho
    obtain ⟨i, hi, hio⟩ := List.mem_map.mp ho
    rw [List.mem_range] at hi
    refine ⟨Nat.odd_iff.mpr (by omega), by omega, by omega⟩

unseal List.merge List.mergeSort in
/-- Witness for C5: with group "g" holding members A, B, C of which A and C
are visible, the offset 3 assigned to A is odd and lies within
`{1, ..., 2·2 - 1}`. -/
theorem layout_unique_odd_offsets_witness :
    Odd 3 ∧ 1 ≤ 3 ∧
      3 ≤ 2 * (visible_signals_in_order [("g", ["A", "B", "C"])]
        [("A", ⟨"A", 0, [], none, true⟩), ("B", ⟨"B", 0, [], none, false⟩),
          ("C", ⟨"C", 0, [], none, true⟩)]).length - 1 :=
  (layout_unique_odd_offsets [("g", ["A", "B", "C"])]
    [("A", ⟨"A", 0, [], none, true⟩), ("B", ⟨"B", 0, [], none, false⟩),
      ("C", ⟨"C", 0, [], none, true⟩)]).2.2 3 (by decide)

/-- C8 — the timestamp normalizer returns the exact millisecond offset from
the 1970-01-01 epoch, divided by 1000, whenever the normalized string
parses in the expected `%Y-%m-%d %H:%M:%S%.3f` format with a valid calendar
value, and returns `0` on every parse failure instead of raising an
error. -/
theorem parse_timestamp_contract (ts : String) :
    (∀ dt : DateTime, parseDateTime (normalizeTs ts) = some dt →
      parse_timestamp_to_f64 ts = (dtMillis dt : ℚ) / 1000) ∧
    (parseDateTime (normalizeTs ts) = none → parse_timestamp_to_f64 ts = 0) := by
  constructor
  · intro dt h
    simp [parse_timestamp_to_f64, h]
  · intro h
    simp [parse_timestamp_to_f64, h]

/-- Witness for C8: the malformed string "not-a-date" normalizes to `0`
rather than raising an error, and a well-formed timestamp yields its exact
epoch offset `1704067201.5` seconds. -/
theorem parse_timestamp_contract_witness :
    parse_timestamp_to_f64 "not-a-date" = 0 ∧
    parse_timestamp_to_f64 "2024-01-01T00:00:01.500Z" = 3408134403 / 2 :=
  ⟨(parse_timestamp_contract "not-a-date").2 (by decide),
    ((parse_timestamp_contract "2024-01-01T00:00:01.500Z").1
      ⟨2024, 1, 1, 0, 0, 1, 500⟩ (by decide)).trans
      (by
        rw [show dtMillis ⟨2024, 1, 1, 0, 0, 1, 500⟩ = 1704067201500 from by decide]
        norm_num)⟩

unseal List.merge List.mergeSort in
/-- Counterexample for C6: two events at the same time for signal "X"
carrying the distinct non-empty groups "g1" and "g2".  Swapping them is a
permutation of the event list, yet first-seen-wins group assignment puts
"X" in "g1" for one order and in "g2" for the other, so the mapping from
group name to member list differs. -/
theorem group_resolution_counterexample :
    ([⟨"ONOFF", "X", some "g1", JsonValue.other, 0⟩,
      ⟨"ONOFF", "X", some "g2", JsonValue.other, 0⟩] : List LogEntry).Perm
      [⟨"ONOFF", "X", some "g2", JsonValue.other, 0⟩,
        ⟨"ONOFF", "X", some "g1", JsonValue.other, 0⟩] ∧
    group_members [⟨"ONOFF", "X", some "g1", JsonValue.other, 0⟩,
      ⟨"ONOFF", "X", some "g2", JsonValue.other, 0⟩] "g1" ≠
      group_members [⟨"ONOFF", "X", some "g2", JsonValue.other, 0⟩,
        ⟨"ONOFF", "X", some "g1", JsonValue.other, 0⟩] "g1" := by
  constructor
  · exact List.Perm.swap _ _ _
  · decide

theorem stgStep_none {e : LogEntry} (he : e.group = none)
    (acc : List (String × String)) : stgStep acc e = acc := by
  unfold stgStep
  rw [he]

theorem stgStep_some {grp : String} {e : LogEntry} (he : e.group = some grp)
    (acc : List (String × String)) :
    stgStep acc e =
      if grp = "" then acc
      else if (acc.find? (fun q => q.1 = e.name)).isSome then acc
      else acc ++ [(e.name, grp)] := by
  unfold stgStep
  rw [he]

theorem stgStep_mono {acc : List (String × String)} {p : String × String}
    (hp : p ∈ acc) (e : LogEntry) : p ∈ stgStep acc e := by
  cases he : e.group with
  | none => rw [stgStep_none he]; exact hp
  | some grp =>
      rw [stgStep_some he]
      by_cases h1 : grp = ""
      · rw [if_pos h1]; exact hp
      · rw [if_neg h1]
        by_cases h2 : (acc.find? (fun q => q.1 = e.name)).isSome
        · rw [if_pos h2]; exact hp
        · rw [if_neg h2]; exact List.mem_append_left _ hp

theorem stg_foldl_mem (logs : List LogEntry) :
    ∀ (acc : List (String × String)) (p : String × String),
      p ∈ logs.foldl stgStep acc →
      p ∈ acc ∨ ∃ e ∈ logs, e.name = p.1 ∧ e.group = some p.2 ∧ p.2 ≠ "" := by
  induction logs with
  | nil => intro acc p hp; exact Or.inl hp
  | cons e rest ih =>
      intro acc p hp
      rcases ih (stgStep acc e) p hp with h | h
      · cases he : e.group with
        | none => rw [stgStep_none he] at h; exact Or.inl h
        | some grp =>
            rw [stgStep_some he] at h
            by_cases h1 : grp = ""
            · rw [if_pos h1] at h; exact Or.inl h
            · rw [if_neg h1] at h
              by_cases h2 : (acc.find? (fun q => q.1 = e.name)).isSome
              · rw [if_pos h2] at h; exact Or.inl h
              · rw [if_neg h2] at h
                rcases List.mem_append.mp h with h | h
                · exact Or.inl h
                · rw [List.mem_singleton] at h
                  subst h
                  exact Or.inr ⟨e, List.mem_cons_self _ _, rfl, he, h1⟩
      · obtain ⟨e', he', hrest⟩ := h
        exact Or.inr ⟨e', List.mem_cons_of_mem _ he', hrest⟩

theorem stg_foldl_key (logs : List LogEntry) :
    ∀ (acc : List (String × String)) (n : String),
      ((∃ g, (n, g) ∈ acc) ∨
        ∃ e ∈ logs, e.name = n ∧ ∃ g, e.group = some g ∧ g ≠ "") →
      ∃ g, (n, g) ∈ logs.foldl stgStep acc := by
  induction logs with
  | nil =>
      intro acc n h
      rcases h with h | h
      · exact h
      · obtain ⟨e, he, _⟩ := h
        cases he
  | cons e rest ih =>
      intro acc n h
      apply ih (stgStep acc e) n
      rcases h with ⟨g, hg⟩ | ⟨e', he', hn, g, hgrp, hne⟩
      · exact Or.inl ⟨g, stgStep_mono hg e⟩
      · rcases List.mem_cons.mp he' with heq | hrest
        · subst heq
          left
          rw [stgStep_some hgrp, if_neg hne]
          by_cases h2 : (acc.find? (fun q => q.1 = e'.name)).isSome
          · rw [if_pos h2]
            obtain ⟨q, hq⟩ := Option.isSome_iff_exists.mp h2
            have hqk : q.1 = e'.name := by
              have := List.find?_some hq
              simpa using this
            have hqm : q ∈ acc := List.mem_of_find?_eq_some hq
            refine ⟨q.2, ?_⟩
            have hq1 : q = (n, q.2) := by
              rw [← hn, ← hqk]
            rw [← hq1]
            exact hqm
          · rw [if_neg h2]
            refine ⟨g, List.mem_append_right _ ?_⟩
            rw [hn]
            exact List.mem_singleton.mpr rfl
        · exact Or.inr ⟨e', hrest, hn, g, hgrp, hne⟩

theorem stg_foldl_nodup (logs : List LogEntry) :
    ∀ acc : List (String × String), (acc.map Prod.fst).Nodup →
      ((logs.foldl stgStep acc).map Prod.fst).Nodup := by
  induction logs with
  | nil => intro acc h; exact h
  | cons e rest ih =>
      intro acc h
      apply ih
      cases he : e.group with
      | none => rw [stgStep_none he]; exact h
      | some grp =>
          rw [stgStep_some he]
          by_cases h1 : grp = ""
          · rw [if_pos h1]; exact h
          · rw [if_neg h1]
            by_cases h2 : (acc.find? (fun q => q.1 = e.name)).isSome
            · rw [if_pos h2]; exact h
            · rw [if_neg h2]
              have hnone : acc.find? (fun q => q.1 = e.name) = none :=
                Option.not_isSome_iff_eq_none.mp h2
              have hkeys : ∀ q ∈ acc, ¬ q.1 = e.name := by
                intro q hq
                have := List.find?_eq_none.mp hnone q hq
                simpa using this
              rw [List.map_append]
              apply List.nodup_append.mpr
              refine ⟨h, List.nodup_singleton _, ?_⟩
              intro a ha hb
              simp only [List.map_cons, List.map_nil, List.mem_singleton] at hb
              obtain ⟨q, hq, hqa⟩ := List.mem_map.mp ha
              exact hkeys q hq (by rw [hqa, hb])

theorem stg_nodup (logs : List LogEntry) :
    ((signal_to_group logs).map Prod.fst).Nodup :=
  stg_foldl_nodup logs [] (by simp)

theorem stg_mem_iff (logs : List LogEntry)
    (hcons : ∀ e1 ∈ logs, ∀ e2 ∈ logs, e1.name = e2.name → ∀ g1 g2 : String,
      e1.group = some g1 → e2.group = some g2 → g1 ≠ "" → g2 ≠ "" → g1 = g2)
    (n g : String) :
    (n, g) ∈ signal_to_group logs ↔
      ∃ e ∈ logs, e.name = n ∧ e.group = some g ∧ g ≠ "" := by
  constructor
  · intro h
    rcases stg_foldl_mem logs [] _ h with h | h
    · cases h
    · exact h
  · rintro ⟨e, he, hn, hg, hne⟩
    obtain ⟨g', hg'⟩ := stg_foldl_key logs [] n (Or.inr ⟨e, he, hn, g, hg, hne⟩)
    have hmem := (stg_foldl_mem logs [] _ hg').resolve_left (by simp)
    obtain ⟨e', he', hn', hg'', hne'⟩ := hmem
    have hgg : g' = g := hcons e' he' e he (hn'.trans hn.symm) g' g hg'' hg hne' hne
    rw [← hgg]
    exact hg'

theorem mem_groupKeys_foldl (logs : List LogEntry) :
    ∀ (acc : List String) (g : String),
      (g ∈ logs.foldl
        (fun acc log =>
          match log.group with
          | some grp =>
              if grp = "" then acc else if grp ∈ acc then acc else acc ++ [grp]
          | none => acc) acc) ↔
      (g ∈ acc ∨ ∃ e ∈ logs, e.group = some g ∧ g ≠ "") := by
  induction logs with
  | nil => intro acc g; simp
  | cons e rest ih =>
      intro acc g
      simp only [List.foldl_cons]
      rw [ih]
      have hstep : (g ∈ (match e.group with
          | some grp =>
              if grp = "" then acc else if grp ∈ acc then acc else acc ++ [grp]
          | none => acc)) ↔ (g ∈ acc ∨ (e.group = some g ∧ g ≠ "")) := by
        cases he : e.group with
        | none => simp
        | some grp =>
            dsimp only
            by_cases h1 : grp = ""
            · subst h1
              simp only [if_pos rfl, Option.some.injEq]
              constructor
              · exact Or.inl
              · rintro (h | ⟨h, hne⟩)
                · exact h
                · exact absurd h.symm hne
            · rw [if_neg h1]
              by_cases h2 : grp ∈ acc
              · rw [if_pos h2]
                simp only [Option.some.injEq]
                constructor
                · exact Or.inl
                · rintro (h | ⟨h, _⟩)
                  · exact h
                  · rw [← h]; exact h2
              · rw [if_neg h2]
                simp only [List.mem_append, List.mem_singleton, Option.some.injEq]
                constructor
                · rintro (h | h)
                  · exact Or.inl h
                  · exact Or.inr ⟨h.symm, h ▸ h1⟩
                · rintro (h | ⟨h, _⟩)
                  · exact Or.inl h
                  · exact Or.inr h.symm
      rw [hstep]
      constructor
      · rintro ((h | h) | h)
        · exact Or.inl h
        · exact Or.inr ⟨e, List.mem_cons_self _ _, h⟩
        · obtain ⟨e', he', hg⟩ := h
          exact Or.inr ⟨e', List.mem_cons_of_mem _ he', hg⟩
      · rintro (h | ⟨e', he', hg⟩)
        · exact Or.inl (Or.inl h)
        · rcases List.mem_cons.mp he' with heq | hrest
          · exact Or.inl (Or.inr (heq ▸ hg))
          · exact Or.inr ⟨e', hrest, hg⟩

theorem mem_groupKeys (logs : List LogEntry) (g : String) :
    g ∈ groupKeys logs ↔ ∃ e ∈ logs, e.group = some g ∧ g ≠ "" := by
  rw [groupKeys, mem_groupKeys_foldl]
  simp

/-- C6 amended — group resolution is deterministic, and it is
order-independent whenever each signal name carries at most one distinct
non-empty group value across the event list (the consistency the
counterexample shows is necessary): for any permutation of such an event
list, the set of created groups and each group's sorted member list are
identical. -/
theorem group_resolution_perm_invariant (logs logs' : List LogEntry)
    (hperm : logs.Perm logs')
    (hcons : ∀ e1 ∈ logs, ∀ e2 ∈ logs, e1.name = e2.name → ∀ g1 g2 : String,
      e1.group = some g1 → e2.group = some g2 → g1 ≠ "" → g2 ≠ "" → g1 = g2)
    (g : String) :
    (g ∈ groupKeys logs ↔ g ∈ groupKeys logs') ∧
    group_members logs g = group_members logs' g := by
  have hcons' : ∀ e1 ∈ logs', ∀ e2 ∈ logs', e1.name = e2.name → ∀ g1 g2 : String,
      e1.group = some g1 → e2.group = some g2 → g1 ≠ "" → g2 ≠ "" → g1 = g2 :=
    fun e1 h1 e2 h2 => hcons e1 (hperm.mem_iff.mpr h1) e2 (hperm.mem_iff.mpr h2)
  constructor
  · rw [mem_groupKeys, mem_groupKeys]
    constructor
    · rintro ⟨e, he, hg⟩
      exact ⟨e, hperm.mem_iff.mp he, hg⟩
    · rintro ⟨e, he, hg⟩
      exact ⟨e, hperm.mem_iff.mpr he, hg⟩
  · unfold group_members
    have hnd : ∀ L : List LogEntry,
        (((signal_to_group L).filter (fun p => p.2 = g)).map Prod.fst).Nodup := by
      intro L
      exact List.Nodup.sublist (List.Sublist.map _ (List.filter_sublist _)) (stg_nodup L)
    apply sorted_nodup_eq_of_mem_iff (sortStr_pairwise _) (sortStr_pairwise _)
    · exact ((List.mergeSort_perm _ _).nodup_iff).mpr (hnd logs)
    · exact ((List.mergeSort_perm _ _).nodup_iff).mpr (hnd logs')
    · intro a
      rw [List.mem_mergeSort, List.mem_mergeSort]
      have hmf : ∀ L : List (String × String),
          (a ∈ (L.filter (fun p => p.2 = g)).map Prod.fst ↔ (a, g) ∈ L) := by
        intro L
        constructor
        · intro h
          obtain ⟨p, hp, hpa⟩ := List.mem_map.mp h
          obtain ⟨hpm, hpg⟩ := List.mem_filter.mp hp
          have : (a, g) = p := by
            have hg2 : p.2 = g := by simpa using hpg
            rw [← hpa, ← hg2]
          rw [this]
          exact hpm
        · intro h
          exact List.mem_map.mpr ⟨(a, g), List.mem_filter.mpr ⟨h, by simp⟩, rfl⟩
      rw [hmf, hmf, stg_mem_iff logs hcons, stg_mem_iff logs' hcons']
      constructor
      · rintro ⟨e, he, hrest⟩
        exact ⟨e, hperm.mem_iff.mp he, hrest⟩
      · rintro ⟨e, he, hrest⟩
        exact ⟨e, hperm.mem_iff.mpr he, hrest⟩

unseal List.merge List.mergeSort in
/-- Witness for C6 (amended): two consistently-grouped events, swapped,
give the same group existence and the same sorted member list `["A", "B"]`
for group "g". -/
theorem group_resolution_perm_invariant_witness :
    (("g" ∈ groupKeys [⟨"ONOFF", "B", some "g", JsonValue.other, 0⟩,
        ⟨"ONOFF", "A", some "g", JsonValue.other, 1⟩]) ↔
      ("g" ∈ groupKeys [⟨"ONOFF", "A", some "g", JsonValue.other, 1⟩,
        ⟨"ONOFF", "B", some "g", JsonValue.other, 0⟩])) ∧
    group_members [⟨"ONOFF", "B", some "g", JsonValue.other, 0⟩,
        ⟨"ONOFF", "A", some "g", JsonValue.other, 1⟩] "g" =
      group_members [⟨"ONOFF", "A", some "g", JsonValue.other, 1⟩,
        ⟨"ONOFF", "B", some "g", JsonValue.other, 0⟩] "g" :=
  group_resolution_perm_invariant
    [⟨"ONOFF", "B", some "g", JsonValue.other, 0⟩,
      ⟨"ONOFF", "A", some "g", JsonValue.other, 1⟩]
    [⟨"ONOFF", "A", some "g", JsonValue.other, 1⟩,
      ⟨"ONOFF", "B", some "g", JsonValue.other, 0⟩]
    (List.Perm.swap _ _ _)
    (by
      intro e1 h1 e2 h2 hname g1 g2 hg1 hg2 hn1 hn2
      simp only [List.mem_cons, List.mem_singleton, List.not_mem_nil, or_false] at h1 h2
      rcases h1 with rfl | rfl <;> rcases h2 with rfl | rfl <;> simp_all)
    "g"

theorem updateSig_mem {S : List (String × SignalData)} {n : String}
    {f : SignalData → SignalData} {p : String × SignalData}
    (hp : p ∈ updateSig S n f) :
    p ∈ S ∨ ∃ q ∈ S, q.1 = n ∧ p = (q.1, f q.2) := by
  obtain ⟨q, hq, hpq⟩ := List.mem_map.mp hp
  by_cases h : q.1 = n
  · right
    exact ⟨q, hq, h, by rw [← hpq, if_pos h]⟩
  · left
    rw [← hpq, if_neg h]
    exact hq

theorem wfState_tail {S : List (String × SignalData)} {e : LogEntry}
    {rest : List LogEntry} (h : wfState S (e :: rest)) : wfState S rest :=
  fun p hp => ⟨(h p hp).1,
    fun st hst e' he' => (h p hp).2 st hst e' (List.mem_cons_of_mem _ he')⟩

theorem wfState_push {S : List (String × SignalData)} {e : LogEntry}
    {rest : List LogEntry} {w : ℚ} (hw : 0 ≤ w)
    (h : wfState S (e :: rest)) :
    wfState (updateSig S e.name (fun s =>
      { s with on_intervals :=
          s.on_intervals ++ [⟨e.timestamp_num, e.timestamp_num + w⟩] })) rest := by
  intro p hp
  rcases updateSig_mem hp with hmem | ⟨q, hq, hqn, rfl⟩
  · exact wfState_tail h p hmem
  · refine ⟨?_, ?_⟩
    · intro iv hiv
      rcases List.mem_append.mp hiv with hiv | hiv
      · exact (h q hq).1 iv hiv
      · rw [List.mem_singleton] at hiv
        rw [hiv]
        exact le_add_of_nonneg_right hw
    · intro st hst e' he'
      exact (h q hq).2 st (by simpa using hst) e' (List.mem_cons_of_mem _ he')

theorem update_signal_data_wfState {S : List (String × SignalData)}
    {e : LogEntry} {rest : List LogEntry}
    (hhead : ∀ e' ∈ rest, e.timestamp_num ≤ e'.timestamp_num)
    (h : wfState S (e :: rest)) : wfState (update_signal_data S e) rest := by
  have hS : wfState S rest := wfState_tail h
  unfold update_signal_data
  by_cases hk1 : e.kind = "ONOFF"
  · rw [if_pos hk1]
    cases hv : e.value with
    | str v =>
        dsimp only
        by_cases hon : v = "ON"
        · rw [if_pos hon]
          intro p hp
          rcases updateSig_mem hp with hmem | ⟨q, hq, hqn, rfl⟩
          · exact hS p hmem
          · refine ⟨(hS q hq).1, ?_⟩
            intro st hst e' he'
            have hst' : e.timestamp_num = st := by simpa using hst
            rw [← hst']
            exact hhead e' he'
        · rw [if_neg hon]
          by_cases hoff : v = "OFF"
          · rw [if_pos hoff]
            intro p hp
            rcases updateSig_mem hp with hmem | ⟨q, hq, hqn, rfl⟩
            · exact hS p hmem
            · cases hio : q.2.is_on with
              | none =>
                  refine ⟨?_, ?_⟩
                  · intro iv hiv
                    simp only [hio] at hiv
                    exact (hS q hq).1 iv hiv
                  · intro st hst e' he'
                    simp only [hio] at hst
                    exact Option.noConfusion hst
              | some st0 =>
                  refine ⟨?_, ?_⟩
                  · intro iv hiv
                    simp only [hio] at hiv
                    rcases List.mem_append.mp hiv with hiv | hiv
                    · exact (h q hq).1 iv hiv
                    · rw [List.mem_singleton] at hiv
                      rw [hiv]
                      exact (h q hq).2 st0 hio e (List.mem_cons_self _ _)
                  · intro st hst e' he'
                    simp only [hio] at hst
                    exact Option.noConfusion hst
          · rw [if_neg hoff]
            exact hS
    | num x => exact hS
    | other => exact hS
  · rw [if_neg hk1]
    by_cases hk2 : e.kind = "PULSE"
    · rw [if_pos hk2]
      cases hv : e.value with
      | str v => exact hS
      | num x => exact wfState_push (by norm_num) h
      | other => exact hS
    · rw [if_neg hk2]
      by_cases hk3 : e.kind = "ARROW"
      · rw [if_pos hk3]
        exact wfState_push (by norm_num) h
      · rw [if_neg hk3]
        exact wfState_push (by norm_num) h

/-- Every raw interval list a full rebuild constructs from a time-sorted
event list satisfies the data-model invariant `start <= end` — the domain
over which the merge order-independence theorem is stated. -/
theorem buildSignals_intervals_wf (logs : List LogEntry)
    (hsorted : logs.Pairwise (fun a b => a.timestamp_num ≤ b.timestamp_num)) :
    ∀ p ∈ buildSignals logs, ∀ iv ∈ p.2.on_intervals, wfIv iv := by
  have hinit : wfState (initSignals logs) logs := by
    intro p hp
    obtain ⟨n, _, rfl⟩ := List.mem_map.mp hp
    refine ⟨?_, ?_⟩
    · intro iv hiv
      cases hiv
    · intro st hst
      simp [initSignal] at hst
  have main : ∀ (L : List LogEntry) (S : List (String × SignalData)),
      L.Pairwise (fun a b => a.timestamp_num ≤ b.timestamp_num) →
      wfState S L → wfState (L.foldl update_signal_data S) [] := by
    intro L
    induction L with
    | nil => intro S _ h; exact h
    | cons e rest ih =>
        intro S hs h
        exact ih _ hs.of_cons
          (update_signal_data_wfState (List.pairwise_cons.mp hs).1 h)
  intro p hp iv hiv
  exact ((main logs _ hsorted hinit) p hp).1 iv hiv

end LogAnalyzer
